import Mathlib

/-!
# Verification of the PageRank engine (`src/pagerank/pagerank.py`)

Shallow embedding of the three core functions of the ranking engine:
`transition_model`, `sample_pagerank` and `iterate_pagerank`.

Modelling conventions:
* a Python page identifier is a natural number (`Page`);
* a Python dict `corpus` (page ↦ set of linked pages) is an association
  list `List (Page × List Page)`; Python dicts preserve insertion order,
  which the list captures; distinctness of keys and set-ness of link
  lists are stated as hypotheses where a claim needs them;
* Python float arithmetic is read over exact rationals `ℚ`;
* a `KeyError` (lookup of a missing dict key) is modelled by `Option`:
  a function that may raise returns `none` in that case;
* `random.choice` / `random.choices` are modelled by an injected oracle:
  `sample_pagerank` takes the start page and a `pick` function that is
  given the transition-model distribution and the remaining step count
  and returns the chosen page.  Hypotheses require the oracle to return
  a page of the distribution's key list, exactly as `random.choices`
  draws from `list(model)`;
* the `while` loop of `iterate_pagerank` is embedded with explicit fuel;
  the termination claim is settled by proving that the result stabilises
  once the fuel is large enough.
-/

abbrev Page := ℕ

/-- A corpus: association list from a page to the list of pages it links to
(the Python dict `{page: set_of_links}`). -/
abbrev Corpus := List (Page × List Page)

/-- The key list of a corpus (the Python `list(corpus)`). -/
def keyList (corpus : Corpus) : List Page := corpus.map Prod.fst

/-- `len(corpus)` read into `ℚ` for the probability formulas. -/
def numPagesQ (corpus : Corpus) : ℚ := corpus.length

/-- Embedding of `transition_model(corpus, page, damping_factor)`
(pagerank.py lines 51–81).  Looks up `corpus[page]` (a missing key is the
Python `KeyError`, modelled by `none`).  If the page has no links, every
corpus page gets `1 / num_pages`; otherwise every page gets
`(1 - damping_factor) / num_pages`, plus `damping_factor / num_links` if
it is linked from `page`. -/
def transition_model (corpus : Corpus) (page : Page) (damping_factor : ℚ) :
    Option (List (Page × ℚ)) :=
  match corpus.lookup page with
  | none => none
  | some links =>
    let num_pages : ℚ := numPagesQ corpus
    let num_links : ℚ := links.length
    if links.length = 0 then
      some (corpus.map fun e => (e.1, 1 / num_pages))
    else
      let random_prob : ℚ := (1 - damping_factor) / num_pages
      let link_prob : ℚ := damping_factor / num_links
      some (corpus.map fun e =>
        (e.1, random_prob + if e.1 ∈ links then link_prob else 0))

section TransitionModelLemmas

/-- `List.lookup` succeeds exactly on members of the key list. -/
theorem lookup_isSome_iff (corpus : Corpus) (p : Page) :
    (corpus.lookup p).isSome ↔ p ∈ keyList corpus := by
  induction corpus with
  | nil => simp [List.lookup, keyList]
  | cons e rest ih =>
    by_cases h : p = e.1
    · subst h
      simp [List.lookup, keyList]
    · have hbeq : (p == e.1) = false := beq_false_of_ne h
      simp only [List.lookup, hbeq, keyList, List.map_cons, List.mem_cons]
      rw [ih]
      simp [keyList, h]

/-- A successful lookup forces membership of the key. -/
theorem mem_keyList_of_lookup {corpus : Corpus} {p : Page} {v : List Page}
    (h : corpus.lookup p = some v) : p ∈ keyList corpus := by
  have : (corpus.lookup p).isSome := by rw [h]; rfl
  exact (lookup_isSome_iff corpus p).mp this

/-- A successful lookup forces the corpus to be non-empty. -/
theorem corpus_ne_nil_of_lookup {corpus : Corpus} {p : Page} {v : List Page}
    (h : corpus.lookup p = some v) : corpus ≠ [] := by
  intro hnil
  subst hnil
  simp [List.lookup] at h

/-- The key list of the distribution returned by `transition_model` is the
key list of the corpus. -/
theorem transition_model_keys {corpus : Corpus} {page : Page} {d : ℚ}
    {dist : List (Page × ℚ)} (h : transition_model corpus page d = some dist) :
    dist.map Prod.fst = keyList corpus := by
  unfold transition_model at h
  cases hl : corpus.lookup page with
  | none => rw [hl] at h; exact absurd h (by simp)
  | some links =>
    rw [hl] at h
    by_cases hz : links.length = 0 <;>
      simp only [hz, if_true, if_false, Option.some.injEq, reduceIte] at h <;>
      subst h <;> simp [keyList]

end TransitionModelLemmas

section SumLemmas

/-- Sum of a constant over a mapped list. -/
theorem sum_map_const {α : Type} (l : List α) (c : ℚ) :
    (l.map fun _ => c).sum = l.length * c := by
  induction l with
  | nil => simp
  | cons a rest ih => simp [ih, add_mul, add_comm]

/-- Counting corpus keys that lie in a duplicate-free sublist of the keys:
the count is exactly the sublist's length. -/
theorem length_filter_mem_of_nodup (keys sub : List Page)
    (hkeys : keys.Nodup) (hsub : sub.Nodup) (hsubset : ∀ x ∈ sub, x ∈ keys) :
    (keys.filter fun x => x ∈ sub).length = sub.length := by
  classical
  have hfil : (keys.filter fun x => x ∈ sub).Nodup := hkeys.filter _
  have hperm : List.Perm (keys.filter fun x => x ∈ sub) sub := by
    apply List.perm_of_nodup_nodup_toFinset_eq hfil hsub
    ext x
    simp only [List.mem_toFinset, List.mem_filter, decide_eq_true_eq]
    exact ⟨fun h => h.2, fun h => ⟨hsubset x h, h⟩⟩
  exact hperm.length_eq

/-- Splitting the sum of an if-then-else over a list into the constant part
and the filtered part. -/
theorem sum_map_ite_split (keys : List Page) (links : List Page) (a b : ℚ) :
    (keys.map fun p => a + if p ∈ links then b else 0).sum =
      keys.length * a + (keys.filter fun p => p ∈ links).length * b := by
  classical
  induction keys with
  | nil => simp
  | cons k rest ih =>
    by_cases hk : k ∈ links
    · simp [List.filter_cons, hk, ih]
      ring
    · simp [List.filter_cons, hk, ih]
      ring

end SumLemmas

/-- *C3.* For a corpus page with zero outgoing links, `transition_model`
returns (without error) the distribution that assigns exactly `1/N` to
every corpus page, `N` being the number of corpus pages. -/
theorem transition_model_dangling_uniform
    (corpus : Corpus) (page : Page) (d : ℚ)
    (h : corpus.lookup page = some []) :
    transition_model corpus page d =
        some (corpus.map fun e => (e.1, 1 / numPagesQ corpus)) ∧
      ∀ q ∈ corpus.map fun e => (e.1, 1 / numPagesQ corpus),
        q.2 = 1 / (corpus.length : ℚ) := by
  constructor
  · simp [transition_model, h]
  · intro q hq
    rw [List.mem_map] at hq
    obtain ⟨e, _, rfl⟩ := hq
    rfl

/-- Witness for C3 on the corpus `{0: {}, 1: {0}}` with `d = 0.85`. -/
theorem transition_model_dangling_uniform_witness :
    transition_model [(0, []), (1, [0])] 0 (85/100) =
        some ([(0, []), (1, [0])].map fun e => (e.1, 1 / numPagesQ [(0, []), (1, [0])])) ∧
      ∀ q ∈ [(0, []), (1, [0])].map fun e => (e.1, 1 / numPagesQ [(0, []), (1, [0])]),
        q.2 = 1 / (([(0, []), (1, [0])] : Corpus).length : ℚ) :=
  transition_model_dangling_uniform [(0, []), (1, [0])] 0 (85/100) (by rfl)

/-- *C4.* For a corpus page with `L > 0` outgoing links (a duplicate-free
link set inside the corpus, as the graph invariants state) and damping
factor `d ∈ (0,1)`, `transition_model` assigns `(1-d)/N + d/L` to each
linked page and `(1-d)/N` to each non-linked page, and the values sum to
exactly 1 over exact rationals. -/
theorem transition_model_linked_values_sum
    (corpus : Corpus) (page : Page) (d : ℚ) (links : List Page)
    (hlook : corpus.lookup page = some links)
    (hne : links ≠ [])
    (hnodupLinks : links.Nodup)
    (hsubset : ∀ l ∈ links, l ∈ keyList corpus)
    (hnodupKeys : (keyList corpus).Nodup)
    (hd0 : 0 < d) (hd1 : d < 1) :
    ∃ dist, transition_model corpus page d = some dist ∧
      (∀ e ∈ dist,
        (e.1 ∈ links →
          e.2 = (1 - d) / (corpus.length : ℚ) + d / (links.length : ℚ)) ∧
        (e.1 ∉ links → e.2 = (1 - d) / (corpus.length : ℚ))) ∧
      (dist.map Prod.snd).sum = 1 := by
  classical
  have hL : links.length ≠ 0 := by simpa using hne
  have hNnil : corpus ≠ [] := corpus_ne_nil_of_lookup hlook
  have hN : corpus.length ≠ 0 := by simpa using hNnil
  have hNQ : (corpus.length : ℚ) ≠ 0 := Nat.cast_ne_zero.mpr hN
  have hLQ : (links.length : ℚ) ≠ 0 := Nat.cast_ne_zero.mpr hL
  refine ⟨corpus.map fun e =>
      (e.1, (1 - d) / numPagesQ corpus +
        if e.1 ∈ links then d / (links.length : ℚ) else 0), ?_, ?_, ?_⟩
  · simp [transition_model, hlook, hL]
  · intro e he
    rw [List.mem_map] at he
    obtain ⟨a, _, rfl⟩ := he
    constructor
    · intro hmem
      simp [hmem, numPagesQ]
    · intro hmem
      simp [hmem, numPagesQ]
  · have hrw : ((corpus.map fun e =>
        (e.1, (1 - d) / numPagesQ corpus +
          if e.1 ∈ links then d / (links.length : ℚ) else 0)).map Prod.snd)
        = (keyList corpus).map fun p =>
            (1 - d) / numPagesQ corpus +
              if p ∈ links then d / (links.length : ℚ) else 0 := by
      simp [keyList, List.map_map]
    rw [hrw, sum_map_ite_split,
      length_filter_mem_of_nodup (keyList corpus) links hnodupKeys hnodupLinks hsubset]
    have hlen : (keyList corpus).length = corpus.length := by simp [keyList]
    rw [hlen]
    unfold numPagesQ
    field_simp

/-- Witness for C4 on the corpus `{0: {1}, 1: {0}}`, page `0`, `d = 1/2`. -/
theorem transition_model_linked_values_sum_witness :
    ∃ dist, transition_model [(0, [1]), (1, [0])] 0 (1/2) = some dist ∧
      (∀ e ∈ dist,
        (e.1 ∈ [1] →
          e.2 = (1 - (1/2 : ℚ)) / (([(0, [1]), (1, [0])] : Corpus).length : ℚ)
            + (1/2 : ℚ) / (([1] : List Page).length : ℚ)) ∧
        (e.1 ∉ [1] →
          e.2 = (1 - (1/2 : ℚ)) / (([(0, [1]), (1, [0])] : Corpus).length : ℚ))) ∧
      (dist.map Prod.snd).sum = 1 :=
  transition_model_linked_values_sum [(0, [1]), (1, [0])] 0 (1/2) [1]
    (by rfl) (by decide) (by decide) (by decide) (by decide)
    (by norm_num) (by norm_num)

/-- Embedding of the inner accumulation of `iterate_pagerank`
(pagerank.py lines 141–148): for a fixed `page_name`, sum over every
`other_page` of the corpus; a page with no links contributes
`page_rank[other_page] * init_prob` (with `init_prob = 1/num_pages`), a
page linking to `page_name` contributes
`page_rank[other_page] / len(corpus[other_page])`, anything else 0.
The rank dict is modelled as a function `Page → ℚ`, read only at corpus
keys. -/
def choice_prob (corpus : Corpus) (page_rank : Page → ℚ) (page_name : Page) : ℚ :=
  (corpus.map fun other =>
    if other.2.length = 0 then page_rank other.1 * (1 / numPagesQ corpus)
    else if page_name ∈ other.2 then page_rank other.1 / (other.2.length : ℚ)
    else 0).sum

/-- One sweep of `iterate_pagerank` before renormalization
(pagerank.py line 150): `rank = random_prob + damping_factor * choice_prob`. -/
def sweep (corpus : Corpus) (damping_factor : ℚ) (page_rank : Page → ℚ) :
    Page → ℚ :=
  fun page_name =>
    (1 - damping_factor) / numPagesQ corpus
      + damping_factor * choice_prob corpus page_rank page_name

/-- Sum of a rank dict's values over the corpus keys
(the Python `sum(new_rank.values())`). -/
def dictSum (corpus : Corpus) (f : Page → ℚ) : ℚ :=
  (corpus.map fun e => f e.1).sum

/-- Renormalization of the rank vector (pagerank.py lines 154–155):
every entry is divided by `sum(new_rank.values())`. -/
def normalizeRanks (corpus : Corpus) (f : Page → ℚ) : Page → ℚ :=
  fun p => f p / dictSum corpus f

/-- The maximum absolute per-page change (pagerank.py lines 158–161):
a fold of `max` starting from 0. -/
def maxChange (corpus : Corpus) (oldR newR : Page → ℚ) : ℚ :=
  (corpus.map fun e => |oldR e.1 - newR e.1|).foldl max 0

/-- The `while max_change > 0.001` loop of `iterate_pagerank`
(pagerank.py lines 136–164), embedded with explicit fuel: each round
sweeps, renormalizes, recomputes the maximum change and replaces the
ranks.  Running out of fuel returns the current ranks. -/
def iterate_loop (corpus : Corpus) (damping_factor : ℚ) :
    ℕ → (Page → ℚ) → ℚ → (Page → ℚ)
  | 0, page_rank, _ => page_rank
  | fuel + 1, page_rank, max_change =>
    if max_change > 1/1000 then
      let new_rank := normalizeRanks corpus (sweep corpus damping_factor page_rank)
      iterate_loop corpus damping_factor fuel new_rank
        (maxChange corpus page_rank new_rank)
    else page_rank

/-- Embedding of `iterate_pagerank(corpus, damping_factor)`
(pagerank.py lines 116–166): every rank starts at `1/num_pages`, the
initial `max_change` is `init_prob = 1/num_pages`, then the loop runs. -/
def iterate_pagerank (corpus : Corpus) (damping_factor : ℚ) (fuel : ℕ) :
    Page → ℚ :=
  iterate_loop corpus damping_factor fuel
    (fun _ => 1 / numPagesQ corpus) (1 / numPagesQ corpus)

/-- The per-page update formula exactly as the specification words it:
`(1-d)/N + d * Σ_over pages q that link to p (rank(q)/outdegree(q))`,
where a dangling `q` (outdegree 0) instead contributes `rank(q) * (1/N)`
to every page.  Written from the spec, to be compared with `sweep`. -/
def specNewRank (corpus : Corpus) (d : ℚ) (rank : Page → ℚ) (p : Page) : ℚ :=
  (1 - d) / numPagesQ corpus
    + d * (((corpus.filter fun q => p ∈ q.2).map
              fun q => rank q.1 / (q.2.length : ℚ)).sum
           + ((corpus.filter fun q => q.2.length = 0).map
              fun q => rank q.1 * (1 / numPagesQ corpus)).sum)

/-- The inner sum of a sweep splits into the linking-pages part and the
dangling-pages part. -/
theorem choice_sum_split (l : Corpus) (rank : Page → ℚ) (p : Page) (c : ℚ) :
    (l.map fun other =>
      if other.2.length = 0 then rank other.1 * c
      else if p ∈ other.2 then rank other.1 / (other.2.length : ℚ)
      else 0).sum =
    ((l.filter fun q => p ∈ q.2).map
        fun q => rank q.1 / (q.2.length : ℚ)).sum
      + ((l.filter fun q => q.2.length = 0).map fun q => rank q.1 * c).sum := by
  classical
  induction l with
  | nil => simp
  | cons e rest ih =>
    simp only [List.map_cons, List.sum_cons, List.filter_cons, ih]
    by_cases h0 : e.2.length = 0
    · have hpe : p ∉ e.2 := by
        have he : e.2 = [] := List.length_eq_zero.mp h0
        simp [he]
      rw [if_pos h0, if_neg (by simp [hpe] : ¬(decide (p ∈ e.2) = true)),
          if_pos (by simp [h0] : decide (e.2.length = 0) = true)]
      simp only [List.map_cons, List.sum_cons]
      ring
    · by_cases hp : p ∈ e.2
      · rw [if_neg h0, if_pos hp,
            if_pos (by simp [hp] : decide (p ∈ e.2) = true),
            if_neg (by simp [h0] : ¬(decide (e.2.length = 0) = true))]
        simp only [List.map_cons, List.sum_cons]
        ring
      · rw [if_neg h0, if_neg hp,
            if_neg (by simp [hp] : ¬(decide (p ∈ e.2) = true)),
            if_neg (by simp [h0] : ¬(decide (e.2.length = 0) = true))]
        ring

/-- *C5.* In every sweep of `iterate_pagerank`, the new rank of a page `p`
before renormalization equals the spec's formula: `(1-d)/N` plus `d`
times the sum of `rank(q)/outdegree(q)` over pages `q` linking to `p`,
where a dangling `q` contributes `rank(q) * (1/N)` instead. -/
theorem sweep_eq_specNewRank (corpus : Corpus) (d : ℚ) (rank : Page → ℚ)
    (p : Page) :
    sweep corpus d rank p = specNewRank corpus d rank p := by
  unfold sweep specNewRank choice_prob
  rw [choice_sum_split]

section IterateInvariants

/-- `dictSum` commutes with pointwise division by a constant. -/
theorem dictSum_div (corpus : Corpus) (f : Page → ℚ) (c : ℚ) :
    dictSum corpus (fun p => f p / c) = dictSum corpus f / c := by
  unfold dictSum
  induction corpus with
  | nil => simp
  | cons e rest ih => simp only [List.map_cons, List.sum_cons, ih, add_div]

/-- `dictSum` of a constant rank function. -/
theorem dictSum_const (corpus : Corpus) (c : ℚ) :
    dictSum corpus (fun _ => c) = corpus.length * c :=
  sum_map_const corpus c

/-- The inner accumulation is non-negative whenever the ranks are
non-negative on the corpus keys. -/
theorem choice_prob_nonneg (corpus : Corpus) (pr : Page → ℚ)
    (hpr : ∀ q ∈ keyList corpus, 0 ≤ pr q) (p : Page) :
    0 ≤ choice_prob corpus pr p := by
  unfold choice_prob
  apply List.sum_nonneg
  intro x hx
  rw [List.mem_map] at hx
  obtain ⟨e, he, rfl⟩ := hx
  have hq : 0 ≤ pr e.1 := hpr e.1 (List.mem_map_of_mem Prod.fst he)
  have hN : (0 : ℚ) ≤ 1 / numPagesQ corpus := by
    unfold numPagesQ
    positivity
  split
  · exact mul_nonneg hq hN
  · split
    · exact div_nonneg hq (Nat.cast_nonneg _)
    · exact le_refl 0

/-- Every swept rank is at least the random-jump share `(1-d)/N`. -/
theorem sweep_lower (corpus : Corpus) (d : ℚ) (pr : Page → ℚ)
    (hd0 : 0 ≤ d) (hpr : ∀ q ∈ keyList corpus, 0 ≤ pr q) (p : Page) :
    (1 - d) / numPagesQ corpus ≤ sweep corpus d pr p := by
  unfold sweep
  have h := choice_prob_nonneg corpus pr hpr p
  have := mul_nonneg hd0 h
  linarith

/-- Swept ranks are non-negative for `0 ≤ d ≤ 1` and non-negative input. -/
theorem sweep_nonneg (corpus : Corpus) (d : ℚ) (pr : Page → ℚ)
    (hd0 : 0 ≤ d) (hd1 : d ≤ 1) (hpr : ∀ q ∈ keyList corpus, 0 ≤ pr q)
    (p : Page) : 0 ≤ sweep corpus d pr p := by
  refine le_trans ?_ (sweep_lower corpus d pr hd0 hpr p)
  unfold numPagesQ
  have h1 : (0 : ℚ) ≤ 1 - d := by linarith
  positivity

/-- The normalization factor `sum(new_rank.values())` is strictly positive
on a non-empty corpus with `0 ≤ d < 1` and non-negative input ranks. -/
theorem dictSum_sweep_pos (corpus : Corpus) (d : ℚ) (pr : Page → ℚ)
    (hne : corpus ≠ []) (hd0 : 0 ≤ d) (hd1 : d < 1)
    (hpr : ∀ q ∈ keyList corpus, 0 ≤ pr q) :
    0 < dictSum corpus (sweep corpus d pr) := by
  have hN : corpus.length ≠ 0 := by simpa using hne
  have hlow : (corpus.map fun _ => (1 - d) / numPagesQ corpus).sum ≤
      (corpus.map fun e => sweep corpus d pr e.1).sum :=
    List.sum_le_sum fun e _ => sweep_lower corpus d pr hd0 hpr e.1
  rw [sum_map_const] at hlow
  have hval : (corpus.length : ℚ) * ((1 - d) / numPagesQ corpus) = 1 - d := by
    unfold numPagesQ
    field_simp
  rw [hval] at hlow
  unfold dictSum
  linarith

/-- Renormalizing yields a rank dict whose values sum to exactly 1,
provided the normalization factor is non-zero. -/
theorem dictSum_normalize_eq_one (corpus : Corpus) (f : Page → ℚ)
    (h : dictSum corpus f ≠ 0) :
    dictSum corpus (normalizeRanks corpus f) = 1 := by
  unfold normalizeRanks
  rw [dictSum_div]
  exact div_self h

/-- The rank-dict invariant carried by the iterative engine: non-negative
values summing to exactly 1 over the corpus keys. -/
def RankInv (corpus : Corpus) (pr : Page → ℚ) : Prop :=
  (∀ p ∈ keyList corpus, 0 ≤ pr p) ∧ dictSum corpus pr = 1

/-- The initial uniform rank dict satisfies the invariant. -/
theorem rankInv_init (corpus : Corpus) (hne : corpus ≠ []) :
    RankInv corpus (fun _ => 1 / numPagesQ corpus) := by
  have hN : corpus.length ≠ 0 := by simpa using hne
  constructor
  · intro p _
    unfold numPagesQ
    positivity
  · rw [dictSum_const]
    unfold numPagesQ
    field_simp

/-- One sweep followed by renormalization preserves the invariant. -/
theorem rankInv_step (corpus : Corpus) (d : ℚ) (pr : Page → ℚ)
    (hne : corpus ≠ []) (hd0 : 0 ≤ d) (hd1 : d < 1) (h : RankInv corpus pr) :
    RankInv corpus (normalizeRanks corpus (sweep corpus d pr)) := by
  have hpos := dictSum_sweep_pos corpus d pr hne hd0 hd1 h.1
  constructor
  · intro p hp
    unfold normalizeRanks
    exact div_nonneg (sweep_nonneg corpus d pr hd0 hd1.le h.1 p) hpos.le
  · exact dictSum_normalize_eq_one _ _ (ne_of_gt hpos)

/-- The embedded while loop preserves the invariant for any fuel. -/
theorem iterate_loop_inv (corpus : Corpus) (d : ℚ)
    (hne : corpus ≠ []) (hd0 : 0 ≤ d) (hd1 : d < 1) :
    ∀ (fuel : ℕ) (pr : Page → ℚ) (mc : ℚ), RankInv corpus pr →
      RankInv corpus (iterate_loop corpus d fuel pr mc) := by
  intro fuel
  induction fuel with
  | zero => intro pr mc h; exact h
  | succ f ih =>
    intro pr mc h
    rw [iterate_loop]
    split
    · exact ih _ _ (rankInv_step corpus d pr hne hd0 hd1 h)
    · exact h

end IterateInvariants

/-- *C6.* Renormalizing after a sweep makes the rank values sum to exactly
1, and the distribution returned by `iterate_pagerank` on a non-empty
corpus with `d ∈ (0,1)` has values summing to 1 (hence within `1e-6` of
1), for every fuel. -/
theorem iterate_pagerank_sum_one (corpus : Corpus) (d : ℚ) (fuel : ℕ)
    (hne : corpus ≠ []) (hd0 : 0 < d) (hd1 : d < 1) :
    (∀ pr : Page → ℚ, RankInv corpus pr →
        dictSum corpus (normalizeRanks corpus (sweep corpus d pr)) = 1) ∧
      dictSum corpus (iterate_pagerank corpus d fuel) = 1 ∧
      |dictSum corpus (iterate_pagerank corpus d fuel) - 1| ≤ 1 / 1000000 := by
  have h1 : ∀ pr : Page → ℚ, RankInv corpus pr →
      dictSum corpus (normalizeRanks corpus (sweep corpus d pr)) = 1 :=
    fun pr h => (rankInv_step corpus d pr hne hd0.le hd1 h).2
  have h2 : dictSum corpus (iterate_pagerank corpus d fuel) = 1 :=
    (iterate_loop_inv corpus d hne hd0.le hd1 fuel _ _ (rankInv_init corpus hne)).2
  refine ⟨h1, h2, ?_⟩
  rw [h2]
  norm_num

/-- Witness for C6 on the corpus `{0: {1}, 1: {0}}`, `d = 0.85`, fuel 3. -/
theorem iterate_pagerank_sum_one_witness :
    (∀ pr : Page → ℚ, RankInv [(0, [1]), (1, [0])] pr →
        dictSum [(0, [1]), (1, [0])]
          (normalizeRanks [(0, [1]), (1, [0])]
            (sweep [(0, [1]), (1, [0])] (85/100) pr)) = 1) ∧
      dictSum [(0, [1]), (1, [0])]
          (iterate_pagerank [(0, [1]), (1, [0])] (85/100) 3) = 1 ∧
      |dictSum [(0, [1]), (1, [0])]
          (iterate_pagerank [(0, [1]), (1, [0])] (85/100) 3) - 1| ≤ 1 / 1000000 :=
  iterate_pagerank_sum_one [(0, [1]), (1, [0])] (85/100) 3
    (by decide) (by norm_num) (by norm_num)

/-- *C8.* `iterate_pagerank` is deterministic: two invocations with equal
corpus, damping factor and fuel return identical rank dicts.  The
embedded function consumes no randomness and reads no state beyond its
arguments, matching the source, which never calls the `random` module in
`iterate_pagerank`. -/
theorem iterate_pagerank_deterministic (c₁ c₂ : Corpus) (d₁ d₂ : ℚ)
    (fuel : ℕ) (hc : c₁ = c₂) (hd : d₁ = d₂) :
    iterate_pagerank c₁ d₁ fuel = iterate_pagerank c₂ d₂ fuel := by
  rw [hc, hd]

/-- Witness for C8: two textually separate invocations on
`{0: {1}, 1: {0}}` with `d = 0.85` agree. -/
theorem iterate_pagerank_deterministic_witness :
    iterate_pagerank [(0, [1]), (1, [0])] (85/100) 7 =
      iterate_pagerank [(0, [1]), (1, [0])] (85/100) 7 :=
  iterate_pagerank_deterministic [(0, [1]), (1, [0])] [(0, [1]), (1, [0])]
    (85/100) (85/100) 7 rfl rfl

/-- Increment-or-insert on the visitation dict (pagerank.py lines 104–107):
an existing key's counter is incremented in place, a new key is appended
with count 1 (Python dicts keep insertion order, new keys go last). -/
def bump : List (Page × ℕ) → Page → List (Page × ℕ)
  | [], p => [(p, 1)]
  | (q, c) :: rest, p =>
    if q = p then (q, c + 1) :: rest else (q, c) :: bump rest p

/-- The sampling loop of `sample_pagerank` (pagerank.py lines 98–107) with
`k` iterations left: compute the transition model of the current page
(`none` on a failed dict lookup), let the oracle draw the next page from
it, bump that page's counter, continue. -/
def sample_steps (corpus : Corpus) (damping_factor : ℚ)
    (pick : List (Page × ℚ) → ℕ → Page) :
    ℕ → Page → List (Page × ℕ) → Option (List (Page × ℕ))
  | 0, _, page_rank => some page_rank
  | k + 1, next_page, page_rank =>
    match transition_model corpus next_page damping_factor with
    | none => none
    | some model =>
      sample_steps corpus damping_factor pick k (pick model k)
        (bump page_rank (pick model k))

/-- Embedding of `sample_pagerank(corpus, damping_factor, n)`
(pagerank.py lines 84–113): the visitation dict starts empty, the loop
`for i in range(n-1)` records `n - 1` transitions starting from the
random start page (whose own draw is not counted), then every counter is
divided by `n`. -/
def sample_pagerank (corpus : Corpus) (damping_factor : ℚ) (n : ℕ)
    (start : Page) (pick : List (Page × ℚ) → ℕ → Page) :
    Option (List (Page × ℚ)) :=
  (sample_steps corpus damping_factor pick (n - 1) start []).map
    fun page_rank => page_rank.map fun e => (e.1, (e.2 : ℚ) / n)

section SampleLemmas

/-- `bump` adds 1 to the total of the counters. -/
theorem bump_sum (m : List (Page × ℕ)) (p : Page) :
    ((bump m p).map Prod.snd).sum = (m.map Prod.snd).sum + 1 := by
  induction m with
  | nil => simp [bump]
  | cons e rest ih =>
    obtain ⟨q, c⟩ := e
    by_cases h : q = p
    · simp [bump, h]
      omega
    · simp [bump, h, ih]
      omega

/-- Keys after a `bump` are old keys or the bumped page. -/
theorem bump_keys (m : List (Page × ℕ)) (p : Page) :
    ∀ x ∈ (bump m p).map Prod.fst, x ∈ m.map Prod.fst ∨ x = p := by
  induction m with
  | nil =>
    intro x hx
    right
    simp [bump] at hx
    exact hx
  | cons e rest ih =>
    obtain ⟨q, c⟩ := e
    intro x hx
    by_cases h : q = p
    · rw [show bump ((q, c) :: rest) p = (q, c + 1) :: rest
          from by simp [bump, h]] at hx
      rw [List.map_cons, List.mem_cons] at hx
      rcases hx with hx | hx
      · left; rw [List.map_cons, List.mem_cons]; left; exact hx
      · left; rw [List.map_cons, List.mem_cons]; right; exact hx
    · rw [show bump ((q, c) :: rest) p = (q, c) :: bump rest p
          from by simp [bump, h]] at hx
      rw [List.map_cons, List.mem_cons] at hx
      rcases hx with hx | hx
      · left; rw [List.map_cons, List.mem_cons]; left; exact hx
      · rcases ih x hx with hh | hh
        · left; rw [List.map_cons, List.mem_cons]; right; exact hh
        · right; exact hh

/-- `bump` keeps every counter at least 1. -/
theorem bump_pos (m : List (Page × ℕ)) (p : Page)
    (hm : ∀ e ∈ m, 1 ≤ e.2) : ∀ e ∈ bump m p, 1 ≤ e.2 := by
  induction m with
  | nil =>
    intro e he
    rw [show bump [] p = [(p, 1)] from rfl, List.mem_singleton] at he
    subst he
    exact le_refl 1
  | cons hd rest ih =>
    obtain ⟨q, c⟩ := hd
    intro e he
    by_cases h : q = p
    · rw [show bump ((q, c) :: rest) p = (q, c + 1) :: rest
          from by simp [bump, h]] at he
      rcases List.mem_cons.mp he with he | he
      · subst he
        exact Nat.succ_le_succ (Nat.zero_le c)
      · exact hm e (List.mem_cons_of_mem _ he)
    · rw [show bump ((q, c) :: rest) p = (q, c) :: bump rest p
          from by simp [bump, h]] at he
      rcases List.mem_cons.mp he with he | he
      · subst he
        exact hm (q, c) (List.mem_cons_self _ _)
      · exact ih (fun e' he' => hm e' (List.mem_cons_of_mem _ he')) e he

/-- `transition_model` succeeds on every corpus page. -/
theorem transition_model_isSome {corpus : Corpus} {cur : Page} (d : ℚ)
    (hcur : cur ∈ keyList corpus) :
    ∃ model, transition_model corpus cur d = some model := by
  have hs : (corpus.lookup cur).isSome := (lookup_isSome_iff corpus cur).mpr hcur
  obtain ⟨links, hlook⟩ := Option.isSome_iff_exists.mp hs
  cases htm : transition_model corpus cur d with
  | some model => exact ⟨model, rfl⟩
  | none =>
    exfalso
    unfold transition_model at htm
    rw [hlook] at htm
    by_cases hz : links.length = 0 <;> simp [hz] at htm

/-- Main loop invariant of the sampling engine: with an in-corpus current
page and an oracle that draws from the model's keys, the loop succeeds,
adds exactly one count per iteration, keeps keys inside the corpus and
keeps every counter positive. -/
theorem sample_steps_spec (corpus : Corpus) (d : ℚ)
    (pick : List (Page × ℚ) → ℕ → Page)
    (hpick : ∀ model i, model.map Prod.fst = keyList corpus →
      pick model i ∈ keyList corpus) :
    ∀ (k : ℕ) (cur : Page) (acc : List (Page × ℕ)),
      cur ∈ keyList corpus →
      (∀ x ∈ acc.map Prod.fst, x ∈ keyList corpus) →
      (∀ e ∈ acc, 1 ≤ e.2) →
      ∃ counts, sample_steps corpus d pick k cur acc = some counts ∧
        (counts.map Prod.snd).sum = (acc.map Prod.snd).sum + k ∧
        (∀ x ∈ counts.map Prod.fst, x ∈ keyList corpus) ∧
        (∀ e ∈ counts, 1 ≤ e.2) := by
  intro k
  induction k with
  | zero =>
    intro cur acc _ hacc hpos
    exact ⟨acc, rfl, by simp, hacc, hpos⟩
  | succ k ih =>
    intro cur acc hcur hacc hpos
    obtain ⟨model, hm⟩ := transition_model_isSome d hcur
    have hnp : pick model k ∈ keyList corpus :=
      hpick model k (transition_model_keys hm)
    have hacc' : ∀ x ∈ (bump acc (pick model k)).map Prod.fst,
        x ∈ keyList corpus := by
      intro x hx
      rcases bump_keys acc (pick model k) x hx with hh | hh
      · exact hacc x hh
      · rw [hh]; exact hnp
    have hpos' := bump_pos acc (pick model k) hpos
    obtain ⟨counts, hrun, hsum, hks, hps⟩ :=
      ih (pick model k) (bump acc (pick model k)) hnp hacc' hpos'
    refine ⟨counts, ?_, ?_, hks, hps⟩
    · rw [sample_steps, hm]
      exact hrun
    · rw [hsum, bump_sum]
      omega

end SampleLemmas

/-- Division by a constant factors out of a mapped list sum. -/
theorem sum_map_div {α : Type} (l : List α) (f : α → ℚ) (c : ℚ) :
    (l.map fun a => f a / c).sum = (l.map f).sum / c := by
  induction l with
  | nil => simp
  | cons a rest ih => simp only [List.map_cons, List.sum_cons, ih, add_div]

/-- Casting the counters to `ℚ` commutes with summing them. -/
theorem counts_cast_sum (counts : List (Page × ℕ)) :
    (counts.map fun e => ((e.2 : ℕ) : ℚ)).sum = ((counts.map Prod.snd).sum : ℚ) := by
  rw [Nat.cast_list_sum, List.map_map]
  rfl

/-- The values of the normalized sample distribution sum to
(total counts)/n. -/
theorem sample_values_sum (counts : List (Page × ℕ)) (n : ℕ) :
    ((counts.map fun e => (e.1, (e.2 : ℚ) / n)).map Prod.snd).sum =
      ((counts.map Prod.snd).sum : ℚ) / n := by
  rw [List.map_map]
  have h1 : (counts.map (Prod.snd ∘ fun e : Page × ℕ => (e.1, (e.2 : ℚ) / n)))
      = counts.map fun e => ((e.2 : ℕ) : ℚ) / (n : ℚ) := rfl
  rw [h1, sum_map_div counts (fun e => ((e.2 : ℕ) : ℚ)) (n : ℚ), counts_cast_sum]

/-- *C1 (counterexample).* On the two-page cycle `{0: {1}, 1: {0}}` with
`d = 1/2`, `n = 2`, start page 0 and an oracle that always draws page 1,
the engine records exactly one transition (page 1's counter is 1) yet
divides by `n = 2`: page 1's value is `1/2`, not `1/1`, so the counters
are not divided by the number of transitions actually recorded and the
values sum to `1/2`, not 1. -/
theorem sample_pagerank_div_by_n_not_recorded :
    sample_pagerank [(0, [1]), (1, [0])] (1/2) 2 0 (fun _ _ => 1) =
        some [(1, 1/2)] ∧ (1 : ℚ) / 2 ≠ 1 / 1 := by
  constructor
  · norm_num [sample_pagerank, sample_steps, transition_model, bump,
      List.lookup, numPagesQ]
  · norm_num

/-- *C1 (amended).* `sample_pagerank` divides every counter by the sample
count `n` although only `n - 1` transitions are recorded, so the returned
values sum to `(n-1)/n`: they fall short of 1 by exactly `1/n` (within
tolerance proportional to `1/n`, but never equal to the reciprocal of the
recorded count). -/
theorem sample_pagerank_sum_shortfall (corpus : Corpus) (d : ℚ) (n : ℕ)
    (start : Page) (pick : List (Page × ℚ) → ℕ → Page)
    (hstart : start ∈ keyList corpus)
    (hpick : ∀ model i, model.map Prod.fst = keyList corpus →
      pick model i ∈ keyList corpus)
    (hn : 1 ≤ n) :
    ∃ dist, sample_pagerank corpus d n start pick = some dist ∧
      (dist.map Prod.snd).sum = (((n : ℕ) : ℚ) - 1) / ((n : ℕ) : ℚ) ∧
      1 - (dist.map Prod.snd).sum = 1 / ((n : ℕ) : ℚ) := by
  obtain ⟨counts, hrun, hsum, _, _⟩ :=
    sample_steps_spec corpus d pick hpick (n - 1) start []
      hstart (by simp) (by simp)
  have hnQ : ((n : ℕ) : ℚ) ≠ 0 := Nat.cast_ne_zero.mpr (by omega)
  have hsum' : (counts.map Prod.snd).sum = n - 1 := by
    rw [hsum]; simp
  have hvals : ((counts.map fun e => (e.1, (e.2 : ℚ) / n)).map Prod.snd).sum =
      (((n : ℕ) : ℚ) - 1) / ((n : ℕ) : ℚ) := by
    rw [sample_values_sum, hsum', Nat.cast_sub hn, Nat.cast_one]
  refine ⟨counts.map fun e => (e.1, (e.2 : ℚ) / n), ?_, hvals, ?_⟩
  · unfold sample_pagerank
    rw [hrun]
    rfl
  · rw [hvals]
    field_simp

/-- Witness for the amended C1: `n = 3` on the two-page cycle records two
transitions and the values sum to `2/3 = (3-1)/3`. -/
theorem sample_pagerank_sum_shortfall_witness :
    ∃ dist, sample_pagerank [(0, [1]), (1, [0])] (1/2) 3 0 (fun _ _ => 1) =
        some dist ∧
      (dist.map Prod.snd).sum = (((3 : ℕ) : ℚ) - 1) / ((3 : ℕ) : ℚ) ∧
      1 - (dist.map Prod.snd).sum = 1 / ((3 : ℕ) : ℚ) :=
  sample_pagerank_sum_shortfall [(0, [1]), (1, [0])] (1/2) 3 0 (fun _ _ => 1)
    (by decide)
    (by intro _ _ _
        exact (by decide : (1 : Page) ∈ keyList [(0, [1]), (1, [0])]))
    (by decide)

/-- *C2 (counterexample).* With `n = 1` (allowed by the stated
precondition `n ≥ 1`) the engine returns the empty mapping even though
page 0 is in the corpus: no visitation counter was initialized for it and
it has no entry at all, rather than an entry with value 0. -/
theorem sample_pagerank_no_entry_for_unvisited :
    sample_pagerank [(0, [1]), (1, [0])] (1/2) 1 0 (fun _ _ => 1) = some [] ∧
      0 ∈ keyList [(0, [1]), (1, [0])] ∧
      (0 : Page) ∉ ([] : List (Page × ℚ)).map Prod.fst := by
  refine ⟨by decide, by decide, by decide⟩

/-- *C2 (amended).* The visitation dict starts empty, so the returned
distribution has entries only for pages actually visited during the
`n - 1` recorded transitions: every key of the output is a corpus page
and every recorded value is strictly positive — a page visited zero times
is absent, not present with value 0. -/
theorem sample_pagerank_entries_only_visited (corpus : Corpus) (d : ℚ)
    (n : ℕ) (start : Page) (pick : List (Page × ℚ) → ℕ → Page)
    (hstart : start ∈ keyList corpus)
    (hpick : ∀ model i, model.map Prod.fst = keyList corpus →
      pick model i ∈ keyList corpus)
    (hn : 1 ≤ n) :
    ∃ dist, sample_pagerank corpus d n start pick = some dist ∧
      (∀ x ∈ dist.map Prod.fst, x ∈ keyList corpus) ∧
      ∀ e ∈ dist, 0 < e.2 := by
  obtain ⟨counts, hrun, _, hks, hpos⟩ :=
    sample_steps_spec corpus d pick hpick (n - 1) start []
      hstart (by simp) (by simp)
  refine ⟨counts.map fun e => (e.1, (e.2 : ℚ) / n), ?_, ?_, ?_⟩
  · unfold sample_pagerank
    rw [hrun]
    rfl
  · intro x hx
    rw [List.map_map] at hx
    exact hks x (by simpa using hx)
  · intro e he
    rw [List.mem_map] at he
    obtain ⟨a, ha, rfl⟩ := he
    have h1 : 1 ≤ a.2 := hpos a ha
    have hnum : (0 : ℚ) < (a.2 : ℚ) := by exact_mod_cast Nat.lt_of_lt_of_le Nat.zero_lt_one h1
    have hden : (0 : ℚ) < ((n : ℕ) : ℚ) := by exact_mod_cast Nat.lt_of_lt_of_le Nat.zero_lt_one hn
    exact div_pos hnum hden

/-- Witness for the amended C2 on the two-page cycle with `n = 3`. -/
theorem sample_pagerank_entries_only_visited_witness :
    ∃ dist, sample_pagerank [(0, [1]), (1, [0])] (1/2) 3 0 (fun _ _ => 1) =
        some dist ∧
      (∀ x ∈ dist.map Prod.fst, x ∈ keyList [(0, [1]), (1, [0])]) ∧
      ∀ e ∈ dist, 0 < e.2 :=
  sample_pagerank_entries_only_visited [(0, [1]), (1, [0])] (1/2) 3 0
    (fun _ _ => 1) (by decide)
    (by intro _ _ _
        exact (by decide : (1 : Page) ∈ keyList [(0, [1]), (1, [0])]))
    (by decide)

/-- *C10.* For `n = 1` the sampling loop body never runs and the result is
the empty mapping; in general exactly `n - 1` visits are recorded in the
counters, and every value of the output is `c/n` for an integer count
`c ≥ 1`. -/
theorem sample_pagerank_records_n_minus_one (corpus : Corpus) (d : ℚ)
    (n : ℕ) (start : Page) (pick : List (Page × ℚ) → ℕ → Page)
    (hstart : start ∈ keyList corpus)
    (hpick : ∀ model i, model.map Prod.fst = keyList corpus →
      pick model i ∈ keyList corpus)
    (hn : 1 ≤ n) :
    (n = 1 → sample_pagerank corpus d n start pick = some []) ∧
    ∃ counts, sample_steps corpus d pick (n - 1) start [] = some counts ∧
      (counts.map Prod.snd).sum = n - 1 ∧
      sample_pagerank corpus d n start pick =
        some (counts.map fun e => (e.1, (e.2 : ℚ) / n)) ∧
      ∀ v ∈ (counts.map fun e => (e.1, (e.2 : ℚ) / n)).map Prod.snd,
        ∃ c : ℕ, 1 ≤ c ∧ v = (c : ℚ) / n := by
  obtain ⟨counts, hrun, hsum, _, hpos⟩ :=
    sample_steps_spec corpus d pick hpick (n - 1) start []
      hstart (by simp) (by simp)
  constructor
  · intro h1
    subst h1
    rfl
  · refine ⟨counts, hrun, by rw [hsum]; simp, ?_, ?_⟩
    · unfold sample_pagerank
      rw [hrun]
      rfl
    · intro v hv
      rw [List.map_map, List.mem_map] at hv
      obtain ⟨a, ha, rfl⟩ := hv
      exact ⟨a.2, hpos a ha, rfl⟩

/-- Witness for C10 on the two-page cycle with `n = 1` and `n`-general
conjuncts instantiated at `n = 1`. -/
theorem sample_pagerank_records_n_minus_one_witness :
    ((1 : ℕ) = 1 →
      sample_pagerank [(0, [1]), (1, [0])] (1/2) 1 0 (fun _ _ => 1) = some []) ∧
    ∃ counts, sample_steps [(0, [1]), (1, [0])] (1/2) (fun _ _ => 1) (1 - 1) 0 [] =
        some counts ∧
      (counts.map Prod.snd).sum = 1 - 1 ∧
      sample_pagerank [(0, [1]), (1, [0])] (1/2) 1 0 (fun _ _ => 1) =
        some (counts.map fun e => (e.1, (e.2 : ℚ) / (1 : ℕ))) ∧
      ∀ v ∈ (counts.map fun e => (e.1, (e.2 : ℚ) / (1 : ℕ))).map Prod.snd,
        ∃ c : ℕ, 1 ≤ c ∧ v = (c : ℚ) / (1 : ℕ) :=
  sample_pagerank_records_n_minus_one [(0, [1]), (1, [0])] (1/2) 1 0
    (fun _ _ => 1) (by decide)
    (by intro _ _ _
        exact (by decide : (1 : Page) ∈ keyList [(0, [1]), (1, [0])]))
    (by decide)

/-- *C9 (counterexample).* With damping factor `3/2 ∉ (0,1)` and sample
count `n = 0 ≤ 0`, `sample_pagerank` reports no error of any kind: it
returns normally with the empty mapping (the loop `for i in range(-1)`
never runs).  No `InvalidConfiguration` check exists in the code. -/
theorem sample_pagerank_bad_config_returns :
    sample_pagerank [(0, [1]), (1, [0])] (3/2) 0 0 (fun _ _ => 0) = some [] := by
  decide

/-- *C9 (amended).* The engines perform no configuration validation: for
any damping factor whatsoever (inside or outside `(0,1)`) and any sample
count `n ≤ 1`, `sample_pagerank` silently returns the empty mapping
instead of failing explicitly. -/
theorem sample_pagerank_no_config_validation (corpus : Corpus) (d : ℚ)
    (n : ℕ) (start : Page) (pick : List (Page × ℚ) → ℕ → Page)
    (hn : n ≤ 1) :
    sample_pagerank corpus d n start pick = some [] := by
  have h0 : n - 1 = 0 := by omega
  unfold sample_pagerank
  rw [h0]
  rfl

/-- Witness for the amended C9 at `d = 3/2`, `n = 0`. -/
theorem sample_pagerank_no_config_validation_witness :
    sample_pagerank [(0, [1]), (1, [0])] (3/2) 0 0 (fun _ _ => 0) = some [] :=
  sample_pagerank_no_config_validation [(0, [1]), (1, [0])] (3/2) 0 0
    (fun _ _ => 0) (by omega)

section ContractionLemmas

/-- Subtraction distributes over mapped list sums. -/
theorem sum_map_sub {α : Type} (l : List α) (f g : α → ℚ) :
    (l.map fun a => f a - g a).sum = (l.map f).sum - (l.map g).sum := by
  induction l with
  | nil => simp
  | cons a rest ih =>
    simp only [List.map_cons, List.sum_cons, ih]
    ring

/-- Exchanging two nested list sums. -/
theorem sum_comm_list {α β : Type} (l1 : List α) (l2 : List β) (f : α → β → ℚ) :
    (l1.map fun a => (l2.map fun b => f a b).sum).sum =
      (l2.map fun b => (l1.map fun a => f a b).sum).sum := by
  induction l1 with
  | nil => simp
  | cons a rest ih =>
    simp only [List.map_cons, List.sum_cons, ih, ← List.sum_map_add]

/-- Triangle inequality for a mapped list sum. -/
theorem abs_sum_le {α : Type} (l : List α) (f : α → ℚ) :
    |(l.map f).sum| ≤ (l.map fun a => |f a|).sum := by
  induction l with
  | nil => simp
  | cons a rest ih =>
    simp only [List.map_cons, List.sum_cons]
    calc |f a + (rest.map f).sum| ≤ |f a| + |(rest.map f).sum| := abs_add _ _
      _ ≤ |f a| + (rest.map fun a => |f a|).sum := by linarith

/-- Sum of a pure if-then-else over a list, counted by the filter. -/
theorem sum_map_ite (keys links : List Page) (b : ℚ) :
    (keys.map fun p => if p ∈ links then b else 0).sum =
      (keys.filter fun p => p ∈ links).length * b := by
  classical
  induction keys with
  | nil => simp
  | cons k rest ih =>
    simp only [List.map_cons, List.sum_cons, List.filter_cons, ih]
    by_cases hk : k ∈ links
    · rw [if_pos hk, if_pos (by simp [hk] : decide (k ∈ links) = true)]
      simp only [List.length_cons]
      push_cast
      ring
    · rw [if_neg hk, if_neg (by simp [hk] : ¬(decide (k ∈ links) = true))]
      ring

/-- Mapping a function of the first components equals mapping over the
key list. -/
theorem map_fst_comp (corpus : Corpus) (h : Page → ℚ) :
    (corpus.map fun e => h e.1) = (keyList corpus).map h := by
  rw [keyList, List.map_map]
  rfl

/-- A left fold of `max` over non-negative values is at most the start
value plus the sum. -/
theorem foldl_max_le_sum (l : List ℚ) (hl : ∀ x ∈ l, 0 ≤ x) :
    ∀ a, 0 ≤ a → l.foldl max a ≤ a + l.sum := by
  induction l with
  | nil =>
    intro a _
    simp
  | cons x rest ih =>
    intro a ha
    have hx : 0 ≤ x := hl x (List.mem_cons_self _ _)
    have hrest : ∀ y ∈ rest, 0 ≤ y := fun y hy => hl y (List.mem_cons_of_mem _ hy)
    simp only [List.foldl_cons, List.sum_cons]
    have h2 := ih hrest (max a x) (le_trans hx (le_max_right a x))
    have h1 : max a x ≤ a + x := max_le (by linarith) (by linarith)
    linarith

/-- The PageRank update coefficient: the probability mass page `q` (with
its link list) sends to page `p` in one sweep, as accumulated by
`choice_prob`. -/
def coefM (corpus : Corpus) (q : Page × List Page) (p : Page) : ℚ :=
  if q.2.length = 0 then 1 / numPagesQ corpus
  else if p ∈ q.2 then 1 / (q.2.length : ℚ) else 0

theorem coefM_nonneg (corpus : Corpus) (q : Page × List Page) (p : Page) :
    0 ≤ coefM corpus q p := by
  unfold coefM numPagesQ
  split
  · positivity
  · split
    · positivity
    · exact le_refl 0

/-- `choice_prob` is the dot product of the coefficient column with the
rank vector. -/
theorem choice_prob_eq_dot (corpus : Corpus) (pr : Page → ℚ) (p : Page) :
    choice_prob corpus pr p =
      (corpus.map fun q => coefM corpus q p * pr q.1).sum := by
  unfold choice_prob coefM
  congr 1
  apply List.map_congr_left
  intro q _
  by_cases h0 : q.2.length = 0
  · rw [if_pos h0, if_pos h0]
    ring
  · rw [if_neg h0, if_neg h0]
    by_cases hp : p ∈ q.2
    · rw [if_pos hp, if_pos hp]
      ring
    · rw [if_neg hp, if_neg hp]
      ring

/-- Column stochasticity: the coefficients a corpus page `q` distributes
over all pages sum to exactly 1 (graph invariants: distinct keys,
duplicate-free link lists pointing inside the corpus). -/
theorem coefM_colsum (corpus : Corpus) (q : Page × List Page)
    (hne : corpus ≠ []) (hkeys : (keyList corpus).Nodup)
    (hlink : q.2.Nodup) (hsub : ∀ l ∈ q.2, l ∈ keyList corpus) :
    (corpus.map fun e => coefM corpus q e.1).sum = 1 := by
  have hN : corpus.length ≠ 0 := by simpa using hne
  unfold coefM
  by_cases h0 : q.2.length = 0
  · simp only [h0, if_pos]
    rw [sum_map_const]
    unfold numPagesQ
    field_simp
  · rw [show (corpus.map fun e =>
        if q.2.length = 0 then 1 / numPagesQ corpus
        else if e.1 ∈ q.2 then 1 / (q.2.length : ℚ) else 0) =
          corpus.map fun e =>
            if e.1 ∈ q.2 then 1 / (q.2.length : ℚ) else 0 from by
      apply List.map_congr_left; intro e _; rw [if_neg h0]]
    rw [map_fst_comp corpus fun p => if p ∈ q.2 then 1 / (q.2.length : ℚ) else 0,
      sum_map_ite, length_filter_mem_of_nodup (keyList corpus) q.2 hkeys hlink hsub]
    have hLQ : ((q.2.length : ℕ) : ℚ) ≠ 0 := Nat.cast_ne_zero.mpr h0
    field_simp

end ContractionLemmas

section SweepContraction

/-- On a graph satisfying the invariants, one sweep preserves a total rank
mass of 1 exactly (over rationals), so the renormalization step divides
by exactly 1. -/
theorem dictSum_sweep_eq_one (corpus : Corpus) (d : ℚ) (pr : Page → ℚ)
    (hne : corpus ≠ []) (hkeys : (keyList corpus).Nodup)
    (hlinks : ∀ e ∈ corpus, e.2.Nodup ∧ ∀ l ∈ e.2, l ∈ keyList corpus)
    (hsum : dictSum corpus pr = 1) :
    dictSum corpus (sweep corpus d pr) = 1 := by
  have hN : corpus.length ≠ 0 := by simpa using hne
  unfold dictSum sweep
  rw [List.sum_map_add, sum_map_const, List.sum_map_mul_left]
  have hdot : (corpus.map fun e => choice_prob corpus pr e.1) =
      corpus.map fun e => (corpus.map fun q => coefM corpus q e.1 * pr q.1).sum :=
    List.map_congr_left fun e _ => choice_prob_eq_dot corpus pr e.1
  rw [hdot, sum_comm_list corpus corpus fun e q => coefM corpus q e.1 * pr q.1]
  have hcol : (corpus.map fun q => (corpus.map fun e => coefM corpus q e.1 * pr q.1).sum) =
      corpus.map fun q => pr q.1 := by
    apply List.map_congr_left
    intro q hq
    rw [List.sum_map_mul_right,
      coefM_colsum corpus q hne hkeys (hlinks q hq).1 (hlinks q hq).2, one_mul]
  rw [hcol]
  unfold dictSum at hsum
  rw [hsum]
  unfold numPagesQ
  field_simp

/-- When the rank values already sum to 1, the renormalization of
`iterate_pagerank` is the identity. -/
theorem normalizeRanks_id (corpus : Corpus) (f : Page → ℚ)
    (h : dictSum corpus f = 1) : normalizeRanks corpus f = f := by
  funext p
  unfold normalizeRanks
  rw [h, div_one]

/-- L1 distance between two rank dicts over the corpus keys. -/
def l1dist (corpus : Corpus) (x y : Page → ℚ) : ℚ :=
  (corpus.map fun e => |x e.1 - y e.1|).sum

/-- The difference of two inner accumulations is the dot product of the
coefficient column with the difference of the rank vectors. -/
theorem choice_prob_sub (corpus : Corpus) (x y : Page → ℚ) (p : Page) :
    choice_prob corpus x p - choice_prob corpus y p =
      (corpus.map fun q => coefM corpus q p * (x q.1 - y q.1)).sum := by
  rw [choice_prob_eq_dot, choice_prob_eq_dot, ← sum_map_sub]
  congr 1
  apply List.map_congr_left
  intro q _
  ring

/-- The sweep is a `d`-contraction in L1 distance on graphs satisfying
the invariants. -/
theorem l1dist_sweep_le (corpus : Corpus) (d : ℚ) (x y : Page → ℚ)
    (hd0 : 0 ≤ d) (hne : corpus ≠ []) (hkeys : (keyList corpus).Nodup)
    (hlinks : ∀ e ∈ corpus, e.2.Nodup ∧ ∀ l ∈ e.2, l ∈ keyList corpus) :
    l1dist corpus (sweep corpus d x) (sweep corpus d y) ≤
      d * l1dist corpus x y := by
  unfold l1dist
  have hpt : (corpus.map fun e =>
        |sweep corpus d x e.1 - sweep corpus d y e.1|) =
      corpus.map fun e =>
        d * |choice_prob corpus x e.1 - choice_prob corpus y e.1| := by
    apply List.map_congr_left
    intro e _
    unfold sweep
    rw [show (1 - d) / numPagesQ corpus + d * choice_prob corpus x e.1 -
        ((1 - d) / numPagesQ corpus + d * choice_prob corpus y e.1) =
          d * (choice_prob corpus x e.1 - choice_prob corpus y e.1) from by ring,
      abs_mul, abs_of_nonneg hd0]
  rw [hpt, List.sum_map_mul_left]
  apply mul_le_mul_of_nonneg_left ?_ hd0
  have hterm : ∀ e ∈ corpus,
      |choice_prob corpus x e.1 - choice_prob corpus y e.1| ≤
        (corpus.map fun q => coefM corpus q e.1 * |x q.1 - y q.1|).sum := by
    intro e _
    rw [choice_prob_sub]
    refine le_trans (abs_sum_le _ _) (le_of_eq ?_)
    congr 1
    apply List.map_congr_left
    intro q _
    rw [abs_mul, abs_of_nonneg (coefM_nonneg corpus q e.1)]
  refine le_trans (List.sum_le_sum hterm) ?_
  rw [sum_comm_list corpus corpus fun e q => coefM corpus q e.1 * |x q.1 - y q.1|]
  refine le_of_eq ?_
  apply congrArg List.sum
  apply List.map_congr_left
  intro q hq
  rw [List.sum_map_mul_right,
    coefM_colsum corpus q hne hkeys (hlinks q hq).1 (hlinks q hq).2, one_mul]

/-- The maximum per-page change is at most the L1 distance. -/
theorem maxChange_le_l1dist (corpus : Corpus) (x y : Page → ℚ) :
    maxChange corpus x y ≤ l1dist corpus x y := by
  unfold maxChange l1dist
  have h := foldl_max_le_sum (corpus.map fun e => |x e.1 - y e.1|)
    (by
      intro z hz
      rw [List.mem_map] at hz
      obtain ⟨e, _, rfl⟩ := hz
      exact abs_nonneg _) 0 le_rfl
  simpa using h

/-- Two non-negative rank dicts that each sum to 1 are at L1 distance at
most 2. -/
theorem l1dist_le_two (corpus : Corpus) (x y : Page → ℚ)
    (hx : ∀ p ∈ keyList corpus, 0 ≤ x p) (hy : ∀ p ∈ keyList corpus, 0 ≤ y p)
    (hsx : dictSum corpus x = 1) (hsy : dictSum corpus y = 1) :
    l1dist corpus x y ≤ 2 := by
  unfold l1dist
  have hb : ∀ e ∈ corpus, |x e.1 - y e.1| ≤ x e.1 + y e.1 := by
    intro e he
    have h1 : 0 ≤ x e.1 := hx e.1 (List.mem_map_of_mem Prod.fst he)
    have h2 : 0 ≤ y e.1 := hy e.1 (List.mem_map_of_mem Prod.fst he)
    rw [abs_le]
    constructor <;> linarith
  refine le_trans (List.sum_le_sum hb) ?_
  rw [List.sum_map_add]
  unfold dictSum at hsx hsy
  rw [hsx, hsy]
  norm_num

end SweepContraction

section Termination

/-- The sequence of rank dicts produced by successive loop rounds
(sweep then renormalize), starting from an arbitrary rank dict. -/
def rankIter (corpus : Corpus) (d : ℚ) (pr : Page → ℚ) : ℕ → (Page → ℚ)
  | 0 => pr
  | k + 1 => normalizeRanks corpus (sweep corpus d (rankIter corpus d pr k))

/-- The `max_change` value the loop holds at the start of each round:
`mc` initially, then the change between consecutive iterates. -/
def mcIter (corpus : Corpus) (d : ℚ) (pr : Page → ℚ) (mc : ℚ) : ℕ → ℚ
  | 0 => mc
  | k + 1 => maxChange corpus (rankIter corpus d pr k) (rankIter corpus d pr (k + 1))

theorem rankIter_shift (corpus : Corpus) (d : ℚ) (pr : Page → ℚ) :
    ∀ k, rankIter corpus d (normalizeRanks corpus (sweep corpus d pr)) k =
      rankIter corpus d pr (k + 1) := by
  intro k
  induction k with
  | zero => rfl
  | succ k ih =>
    rw [rankIter, ih]
    rfl

theorem mcIter_shift (corpus : Corpus) (d : ℚ) (pr : Page → ℚ) (mc : ℚ) :
    ∀ k, mcIter corpus d (normalizeRanks corpus (sweep corpus d pr))
        (maxChange corpus pr (normalizeRanks corpus (sweep corpus d pr))) k =
      mcIter corpus d pr mc (k + 1) := by
  intro k
  cases k with
  | zero => rfl
  | succ k =>
    rw [mcIter, mcIter, rankIter_shift, rankIter_shift]

/-- A loop whose entry `max_change` is at or below the threshold exits at
once, whatever the fuel. -/
theorem iterate_loop_exit (corpus : Corpus) (d : ℚ) (fuel : ℕ)
    (pr : Page → ℚ) (mc : ℚ) (h : ¬(mc > 1/1000)) :
    iterate_loop corpus d fuel pr mc = pr := by
  cases fuel with
  | zero => rfl
  | succ f => rw [iterate_loop, if_neg h]

/-- One unfolding of the loop when the threshold is exceeded. -/
theorem iterate_loop_succ (corpus : Corpus) (d : ℚ) (f : ℕ)
    (pr : Page → ℚ) (mc : ℚ) (h : mc > 1/1000) :
    iterate_loop corpus d (f + 1) pr mc =
      iterate_loop corpus d f (normalizeRanks corpus (sweep corpus d pr))
        (maxChange corpus pr (normalizeRanks corpus (sweep corpus d pr))) := by
  rw [iterate_loop, if_pos h]

/-- Once the change sequence dips to the threshold by round `k`, any fuel
of at least `k` produces the same result as fuel exactly `k`: the loop
genuinely stops. -/
theorem iterate_loop_eq_of_exit (corpus : Corpus) (d : ℚ) :
    ∀ (k : ℕ) (pr : Page → ℚ) (mc : ℚ) (fuel : ℕ), k ≤ fuel →
      mcIter corpus d pr mc k ≤ 1/1000 →
      iterate_loop corpus d fuel pr mc = iterate_loop corpus d k pr mc := by
  intro k
  induction k with
  | zero =>
    intro pr mc fuel _ hmc
    rw [iterate_loop_exit corpus d fuel pr mc (not_lt.mpr hmc)]
    rfl
  | succ k ih =>
    intro pr mc fuel hf hmc
    obtain ⟨f, rfl⟩ : ∃ f, fuel = f + 1 := ⟨fuel - 1, by omega⟩
    by_cases hgt : mc > 1/1000
    · rw [iterate_loop_succ corpus d f pr mc hgt,
        iterate_loop_succ corpus d k pr mc hgt]
      apply ih
      · omega
      · rw [mcIter_shift corpus d pr mc k]
        exact hmc
    · rw [iterate_loop_exit corpus d (f + 1) pr mc hgt,
        iterate_loop_exit corpus d (k + 1) pr mc hgt]

/-- Along the trajectory started at the uniform dict, every iterate sums
to exactly 1 and the renormalization is the identity, so each next
iterate is just the sweep of the previous one. -/
theorem rankIter_sweep (corpus : Corpus) (d : ℚ)
    (hne : corpus ≠ []) (hkeys : (keyList corpus).Nodup)
    (hlinks : ∀ e ∈ corpus, e.2.Nodup ∧ ∀ l ∈ e.2, l ∈ keyList corpus) :
    ∀ j, dictSum corpus (rankIter corpus d (fun _ => 1 / numPagesQ corpus) j) = 1 ∧
      rankIter corpus d (fun _ => 1 / numPagesQ corpus) (j + 1) =
        sweep corpus d (rankIter corpus d (fun _ => 1 / numPagesQ corpus) j) := by
  intro j
  induction j with
  | zero =>
    have h0 : dictSum corpus (fun _ => 1 / numPagesQ corpus) = 1 :=
      (rankInv_init corpus hne).2
    refine ⟨h0, ?_⟩
    show normalizeRanks corpus (sweep corpus d (fun _ => 1 / numPagesQ corpus)) =
      sweep corpus d (fun _ => 1 / numPagesQ corpus)
    exact normalizeRanks_id corpus _
      (dictSum_sweep_eq_one corpus d _ hne hkeys hlinks h0)
  | succ j ih =>
    have hsum : dictSum corpus
        (rankIter corpus d (fun _ => 1 / numPagesQ corpus) (j + 1)) = 1 := by
      rw [ih.2]
      exact dictSum_sweep_eq_one corpus d _ hne hkeys hlinks ih.1
    refine ⟨hsum, ?_⟩
    rw [show rankIter corpus d (fun _ => 1 / numPagesQ corpus) (j + 1 + 1) =
        normalizeRanks corpus
          (sweep corpus d (rankIter corpus d (fun _ => 1 / numPagesQ corpus) (j + 1)))
      from rfl,
      normalizeRanks_id corpus _ (dictSum_sweep_eq_one corpus d _ hne hkeys hlinks hsum)]

/-- Geometric decay of the L1 distance between consecutive iterates. -/
theorem l1dist_rankIter_le (corpus : Corpus) (d : ℚ)
    (hne : corpus ≠ []) (hkeys : (keyList corpus).Nodup)
    (hlinks : ∀ e ∈ corpus, e.2.Nodup ∧ ∀ l ∈ e.2, l ∈ keyList corpus)
    (hd0 : 0 ≤ d) :
    ∀ j, l1dist corpus (rankIter corpus d (fun _ => 1 / numPagesQ corpus) j)
        (rankIter corpus d (fun _ => 1 / numPagesQ corpus) (j + 1)) ≤
      d ^ j * l1dist corpus (fun _ => 1 / numPagesQ corpus)
        (rankIter corpus d (fun _ => 1 / numPagesQ corpus) 1) := by
  intro j
  induction j with
  | zero =>
    rw [pow_zero, one_mul]
    exact le_rfl
  | succ j ih =>
    have h1 := (rankIter_sweep corpus d hne hkeys hlinks j).2
    have h2 := (rankIter_sweep corpus d hne hkeys hlinks (j + 1)).2
    have hcontr : l1dist corpus
        (rankIter corpus d (fun _ => 1 / numPagesQ corpus) (j + 1))
        (rankIter corpus d (fun _ => 1 / numPagesQ corpus) (j + 1 + 1)) ≤
        d * l1dist corpus (rankIter corpus d (fun _ => 1 / numPagesQ corpus) j)
          (rankIter corpus d (fun _ => 1 / numPagesQ corpus) (j + 1)) := by
      rw [h2, h1]
      exact l1dist_sweep_le corpus d _ _ hd0 hne hkeys hlinks
    refine le_trans hcontr ?_
    calc d * l1dist corpus (rankIter corpus d (fun _ => 1 / numPagesQ corpus) j)
          (rankIter corpus d (fun _ => 1 / numPagesQ corpus) (j + 1))
        ≤ d * (d ^ j * l1dist corpus (fun _ => 1 / numPagesQ corpus)
            (rankIter corpus d (fun _ => 1 / numPagesQ corpus) 1)) :=
          mul_le_mul_of_nonneg_left ih hd0
      _ = d ^ (j + 1) * l1dist corpus (fun _ => 1 / numPagesQ corpus)
            (rankIter corpus d (fun _ => 1 / numPagesQ corpus) 1) := by ring

end Termination

/-- *C7.* On every finite non-empty corpus satisfying the graph invariants
(distinct keys, duplicate-free link sets pointing inside the corpus) with
damping factor `d ∈ (0,1)`, the `while max_change > 0.001` loop of
`iterate_pagerank` terminates: a finite fuel bound exists beyond which
granting the embedded loop more fuel never changes the result — the loop
exits by the threshold test alone, with no iteration cap. -/
theorem iterate_pagerank_terminates (corpus : Corpus) (d : ℚ)
    (hne : corpus ≠ []) (hkeys : (keyList corpus).Nodup)
    (hlinks : ∀ e ∈ corpus, e.2.Nodup ∧ ∀ l ∈ e.2, l ∈ keyList corpus)
    (hd0 : 0 < d) (hd1 : d < 1) :
    ∃ F, ∀ m, F ≤ m →
      iterate_pagerank corpus d m = iterate_pagerank corpus d F := by
  obtain ⟨k0, hk0⟩ : ∃ n : ℕ, d ^ n < 1/2000 :=
    exists_pow_lt_of_lt_one (by norm_num) hd1
  set x0 : Page → ℚ := fun _ => 1 / numPagesQ corpus with hx0
  have hC : l1dist corpus x0 (rankIter corpus d x0 1) ≤ 2 := by
    have hinv0 := rankInv_init corpus hne
    have hstep := (rankIter_sweep corpus d hne hkeys hlinks 0).2
    apply l1dist_le_two corpus _ _ hinv0.1 _ hinv0.2
      (rankIter_sweep corpus d hne hkeys hlinks 1).1
    intro p hp
    rw [show rankIter corpus d x0 1 = sweep corpus d x0 from hstep]
    exact sweep_nonneg corpus d x0 hd0.le hd1.le hinv0.1 p
  have hmc : mcIter corpus d x0 (1 / numPagesQ corpus) (k0 + 1) ≤ 1/1000 := by
    rw [mcIter]
    refine le_trans (maxChange_le_l1dist corpus _ _) ?_
    refine le_trans (l1dist_rankIter_le corpus d hne hkeys hlinks hd0.le k0) ?_
    have hpow : (0 : ℚ) ≤ d ^ k0 := pow_nonneg hd0.le k0
    calc d ^ k0 * l1dist corpus x0 (rankIter corpus d x0 1)
        ≤ d ^ k0 * 2 := by
          apply mul_le_mul_of_nonneg_left hC hpow
      _ ≤ (1/2000) * 2 := by nlinarith
      _ = 1/1000 := by norm_num
  refine ⟨k0 + 1, fun m hm => ?_⟩
  unfold iterate_pagerank
  rw [iterate_loop_eq_of_exit corpus d (k0 + 1) x0 (1 / numPagesQ corpus) m hm hmc]

/-- Witness for C7 on the two-page cycle `{0: {1}, 1: {0}}`, `d = 1/2`. -/
theorem iterate_pagerank_terminates_witness :
    ∃ F, ∀ m, F ≤ m →
      iterate_pagerank [(0, [1]), (1, [0])] (1/2) m =
        iterate_pagerank [(0, [1]), (1, [0])] (1/2) F :=
  iterate_pagerank_terminates [(0, [1]), (1, [0])] (1/2)
    (by decide) (by decide) (by decide) (by norm_num) (by norm_num)
